import Mathlib

set_option maxRecDepth 100000
set_option maxHeartbeats 16000000

/-!
Verification of the `migrate-scaffold-ui-imports` codemod core
(`src/migrate-scaffold-ui-imports.ts`).

File text is modelled as `List Char`.  The statement-matching regexes
(`IMPORT_REGEX`, `EXPORT_FROM_REGEX`, the named-clause token regex, the
default-import regex and the `\s+as\s+` infix regex) are deterministic
when the JS backtracking order is unfolded, and are embedded as direct
scanning functions; each embedding is documented next to its definition
with the backtracking argument.  `String.prototype.replace` with a string
pattern is embedded including the `$`-substitution of the replacement
string (ECMA-262 GetSubstitution: with a string search value there are no
capture groups, so `$$`, `$&`, a dollar followed by a backquote, and a
dollar followed by a quote are active and every other `$`-sequence stays
literal).  `split(sep).join(rep)` is embedded as leftmost non-overlapping
replace-all without `$`-processing.
-/

namespace Codemod

/-- JS `\s` / `String.prototype.trim` whitespace set (ECMA-262 WhiteSpace
plus LineTerminator). -/
def isJsSpace (c : Char) : Bool :=
  c = ' ' || c = Char.ofNat 9 || c = Char.ofNat 10 || c = Char.ofNat 11 ||
  c = Char.ofNat 12 || c = Char.ofNat 13 || c = Char.ofNat 0xa0 ||
  c = Char.ofNat 0x1680 ||
  (Char.ofNat 0x2000 ≤ c && c ≤ Char.ofNat 0x200a) ||
  c = Char.ofNat 0x2028 || c = Char.ofNat 0x2029 || c = Char.ofNat 0x202f ||
  c = Char.ofNat 0x205f || c = Char.ofNat 0x3000 || c = Char.ofNat 0xfeff

/-- The double-quote character. -/
def dquote : Char := Char.ofNat 34

/-- The single-quote character. -/
def squote : Char := Char.ofNat 39

/-- The backquote character (used by the `$`-substitution of
`String.prototype.replace`). -/
def backquote : Char := Char.ofNat 96

/-- The dollar character. -/
def dollarChar : Char := Char.ofNat 36

/-- The opening curly brace character. -/
def lbrace : Char := Char.ofNat 123

/-- The closing curly brace character. -/
def rbrace : Char := Char.ofNat 125

/-- A quote character as accepted by the path part of `IMPORT_REGEX` and
`EXPORT_FROM_REGEX`. -/
def isQuote (c : Char) : Bool := c = dquote || c = squote

/-- JS `String.prototype.indexOf` restricted to the first occurrence:
`firstIndexOf s pat = some i` when `i` is the least index at which `pat`
occurs in `s`, `none` when `pat` does not occur. -/
def firstIndexOf (s pat : List Char) : Option Nat :=
  if pat.isPrefixOf s then some 0
  else
    match s with
    | [] => none
    | _ :: cs => (firstIndexOf cs pat).map (· + 1)

/-- JS `String.prototype.includes`. -/
def jsIncludes (s pat : List Char) : Bool := (firstIndexOf s pat).isSome

/-- ECMA-262 GetSubstitution for a string search value (no capture
groups): expands `$$`, `$&` (the matched text), dollar-backquote (the
text before the match) and dollar-quote (the text after the match);
every other `$`-sequence is kept literal. -/
def expandDollar (matched before after : List Char) : List Char → List Char
  | [] => []
  | c :: cs =>
    if c = dollarChar then
      match cs with
      | [] => [dollarChar]
      | d :: ds =>
        if d = dollarChar then dollarChar :: expandDollar matched before after ds
        else if d = '&' then matched ++ expandDollar matched before after ds
        else if d = backquote then before ++ expandDollar matched before after ds
        else if d = squote then after ++ expandDollar matched before after ds
        else dollarChar :: expandDollar matched before after (d :: ds)
    else c :: expandDollar matched before after cs

/-- JS `String.prototype.replace` with a string search value and a string
replacement: replaces the first occurrence of `pat`, running the
replacement string through GetSubstitution. -/
def jsReplace (s pat rep : List Char) : List Char :=
  match firstIndexOf s pat with
  | none => s
  | some i =>
    let before := s.take i
    let after := s.drop (i + pat.length)
    before ++ expandDollar pat before after rep ++ after

/-- One pass of JS `s.split(sep).join(rep)` unfolded as leftmost
non-overlapping replace-all (no `$`-processing in `rep`).  Fuelled; the
fuel `s.length` of `splitJoin` is enough because every step consumes at
least `sep.length ≥ 1` characters (the call sites pass fixed non-empty
separators). -/
def splitJoinAux (sep rep : List Char) : Nat → List Char → List Char
  | 0, s => s
  | fuel + 1, s =>
    match firstIndexOf s sep with
    | none => s
    | some i => s.take i ++ rep ++ splitJoinAux sep rep fuel (s.drop (i + sep.length))

/-- JS `s.split(sep).join(rep)` for the non-empty separators used by the
codemod. -/
def splitJoin (sep rep s : List Char) : List Char := splitJoinAux sep rep s.length s

/-- Length of the maximal leading run of JS whitespace (the deterministic
value of a greedy `\s+` / `\s*`). -/
def wsRun : List Char → Nat
  | [] => 0
  | c :: cs => if isJsSpace c then wsRun cs + 1 else 0

/-- Length of the maximal leading run of non-quote characters (the
deterministic value of a greedy `[^"']+`). -/
def nonQuoteRun : List Char → Nat
  | [] => 0
  | c :: cs => if isQuote c then 0 else nonQuoteRun cs + 1

/-- JS `/\s+/g` replacement by a single space, as used by
`statement.replace(/\s+/g, " ")`: every maximal whitespace run becomes
one space.  The boolean argument records whether the previous character
was whitespace (so only the first character of a run emits a space). -/
def collapseWsAux : Bool → List Char → List Char
  | _, [] => []
  | prevWs, c :: cs =>
    if isJsSpace c then
      (if prevWs then [] else [' ']) ++ collapseWsAux true cs
    else c :: collapseWsAux false cs

/-- JS `statement.replace(/\s+/g, " ")`. -/
def collapseWs (s : List Char) : List Char := collapseWsAux false s

/-- JS `String.prototype.trim`. -/
def jsTrim (s : List Char) : List Char :=
  ((s.dropWhile isJsSpace).reverse.dropWhile isJsSpace).reverse

/-- The literal `from` of the statement regexes. -/
def fromKw : List Char := "from".data

/-- The literal `import` of `IMPORT_REGEX`. -/
def importKw : List Char := "import".data

/-- The literal `export` of `EXPORT_FROM_REGEX`. -/
def exportKw : List Char := "export".data

/--
The tail `from\s+["']([^"']+)["'];?` of `IMPORT_REGEX` /
`EXPORT_FROM_REGEX` matched at the head of `u`; returns the number of
consumed characters and the captured path.  Determinism: after the
literal `from`, the greedy `\s+` must end exactly at the maximal
whitespace run (a shorter run would put a whitespace character where the
quote is required); the greedy `[^"']+` must end exactly at the maximal
non-quote run (a shorter run would put a non-quote character where the
closing quote is required); `;?` greedily takes a semicolon when
present.  The opening and closing quote may be of different kinds, as in
the character class of the regex.
-/
def tailMatch (u : List Char) : Option (Nat × List Char) :=
  if fromKw.isPrefixOf u then
    let u1 := u.drop 4
    let w := wsRun u1
    if w = 0 then none
    else
      match (u1.drop w).head? with
      | none => none
      | some q1 =>
        if isQuote q1 then
          let u2 := u1.drop (w + 1)
          let r := nonQuoteRun u2
          if r = 0 then none
          else
            match (u2.drop r).head? with
            | none => none
            | some q2 =>
              if isQuote q2 then
                let semi := if (u2.drop (r + 1)).head? = some ';' then 1 else 0
                some (4 + w + 1 + r + 1 + semi, u2.take r)
              else none
        else none
  else none

/--
The lazy `[\s\S]*?` of the statement regexes: the first offset at which
the tail of the regex matches.  JS backtracking tries the lazy part
shortest-first, so the engine finds the least such offset; trying a
shorter `\s+` before the lazy part cannot reach an earlier tail match
because the skipped characters are whitespace and the tail starts with
the non-whitespace literal `from`.
-/
def findTail : List Char → Option (Nat × Nat × List Char)
  | [] => none
  | c :: cs =>
    match tailMatch (c :: cs) with
    | some (n, p) => some (0, n, p)
    | none => (findTail cs).map fun x => (x.1 + 1, x.2.1, x.2.2)

/--
One match attempt of `<kw>\s+[\s\S]*?from\s+["']([^"']+)["'];?` at the
head of `l`: the literal keyword, at least one whitespace character, and
then the first position at which the regex tail matches.  Returns the
match length and the captured path.
-/
def matchFrom (kw l : List Char) : Option (Nat × List Char) :=
  if kw.isPrefixOf l then
    match (l.drop kw.length).head? with
    | none => none
    | some c =>
      if isJsSpace c then
        match findTail (l.drop (kw.length + 1)) with
        | some (o, n, p) => some (kw.length + 1 + o + n, p)
        | none => none
      else none
  else none

/--
`String.prototype.matchAll` of a global statement regex: scan start
positions left to right, emit each match as (full matched text, captured
path) and resume scanning right after the matched text (the regexes
cannot produce empty matches).  Fuelled by the length of the text; on a
successful match at least `kw.length + 1` characters are consumed, and
on failure the scan advances one character, so `l.length` fuel always
suffices.
-/
def findMatchesAux (kw : List Char) : Nat → List Char → List (List Char × List Char)
  | 0, _ => []
  | _ + 1, [] => []
  | fuel + 1, l@(_ :: cs) =>
    match matchFrom kw l with
    | some (n, p) => (l.take n, p) :: findMatchesAux kw fuel (l.drop n)
    | none => findMatchesAux kw fuel cs

/-- JS `Array.from(text.matchAll(regex))` for the two statement regexes. -/
def findMatches (kw l : List Char) : List (List Char × List Char) :=
  findMatchesAux kw l.length l

/--
`fullStatement.match(/\{([\s\S]*?)\}/)`: the first opening brace that has
a closing brace after it; the lazy body stops at the first closing
brace.  Returns (the full matched `{...}` text, the captured body).
A start position whose opening brace has no closing brace after it fails,
and the engine moves on (no later start position can succeed either,
since the closing-brace search runs to the end of the string).
-/
def findBrace : List Char → Option (List Char × List Char)
  | [] => none
  | c :: cs =>
    if c = lbrace then
      match firstIndexOf cs [rbrace] with
      | some i => some (lbrace :: (cs.take i ++ [rbrace]), cs.take i)
      | none => findBrace cs
    else findBrace cs

/-- Maximal leading run matching `\s+as\s+` at the head of `u`, or
`none`: a maximal whitespace run (a shorter one would put a whitespace
character where the `a` is required), the literal `as`, and another
maximal whitespace run of length at least one. -/
def asMatchAt (u : List Char) : Option Nat :=
  let k := wsRun u
  if k = 0 then none
  else if ("as".data).isPrefixOf (u.drop k) then
    let m := wsRun (u.drop (k + 2))
    if m = 0 then none else some (k + 2 + m)
  else none

/-- JS `rest.match(/\s+as\s+/)`: first start position at which `\s+as\s+`
matches; returns (index, length of the matched text). -/
def findAsMatch : List Char → Option (Nat × Nat)
  | [] => none
  | c :: cs =>
    match asMatchAt (c :: cs) with
    | some len => some (0, len)
    | none => (findAsMatch cs).map fun x => (x.1 + 1, x.2)

/--
The tokens of `/([^,]+)(,?)/g` over the brace body, via `matchAll`:
positions holding a comma cannot start a match (`[^,]+` needs at least
one non-comma character) and are skipped; a match is a maximal non-comma
run (greedy `[^,]+`) followed by an optional comma.  Each token is
(captured run, captured comma).  The accumulator holds the reversed
current run, `none` when no run is open.
-/
def clauseTokensAux : Option (List Char) → List Char → List (List Char × List Char)
  | none, [] => []
  | some acc, [] => [(acc.reverse, [])]
  | none, c :: cs =>
    if c = ',' then clauseTokensAux none cs
    else clauseTokensAux (some [c]) cs
  | some acc, c :: cs =>
    if c = ',' then (acc.reverse, [',']) :: clauseTokensAux none cs
    else clauseTokensAux (some (c :: acc)) cs

/-- The token list of the named-import clause body. -/
def clauseTokens (content : List Char) : List (List Char × List Char) :=
  clauseTokensAux none content

/-- Source `SpecifierRenameRule`: new name plus whether to keep the
old name as a compatibility alias. -/
structure SpecifierRenameRule where
  newName : List Char
  keepAlias : Bool
deriving DecidableEq, Repr

/-- The parsed part of a `NamedImportEntry` (`entry.spec`). -/
structure NamedImportSpec where
  isType : Bool
  imported : List Char
  aliasName : Option (List Char)
deriving DecidableEq, Repr

/-- Source `NamedImportEntry`: a slot of the `{ ... }` clause.
Filler entries (whitespace-only tokens) carry only `raw`; the optional
fields model the fields left `undefined` by the source. -/
structure NamedImportEntry where
  raw : List Char
  spec : Option NamedImportSpec
  leadingWhitespace : Option (List Char)
  trailingWhitespace : Option (List Char)
  comma : Option (List Char)
deriving DecidableEq, Repr

/-- Source `NamedImportParseResult`. -/
structure NamedImportParseResult where
  entries : List NamedImportEntry
  specifiers : List (List Char)
deriving DecidableEq, Repr

/-- Source `ImportTransform`. -/
structure ImportTransform where
  newPath : List Char
  renameSpecifiers : Option (List (List Char × SpecifierRenameRule))
  description : List Char
deriving DecidableEq, Repr

/-- Source `ImportAnalysis`. -/
structure ImportAnalysis where
  original : List Char
  updated : List Char
  specifiers : List (List Char)
  defaultImport : Option (List Char)
  appliedTransform : Option ImportTransform
deriving DecidableEq, Repr

/-- Source `COMPONENT_TARGET`. -/
def COMPONENT_TARGET : List Char := "@scaffold-ui/components".data

/-- The bare deprecated path, the prefix tested by
`legacyPath.startsWith("~~/components/scaffold-eth")`. -/
def bareLegacyPath : List Char := "~~/components/scaffold-eth".data

/-- Source `LEGACY_COMPONENT_SPECIFIERS`. -/
def LEGACY_COMPONENT_SPECIFIERS : List (List Char) :=
  ["Address".data, "AddressInput".data, "Balance".data, "EtherInput".data,
   "InputBase".data, "BaseInput".data]

/-- Source `COMPONENT_SPECIFIER_RENAMES`: the single rename rule
`InputBase → BaseInput`, keeping the alias. -/
def COMPONENT_SPECIFIER_RENAMES : List (List Char × SpecifierRenameRule) :=
  [("InputBase".data, ⟨"BaseInput".data, true⟩)]

/-- Source `RAW_PATH_REPLACEMENTS`, in source order. -/
def RAW_PATH_REPLACEMENTS : List (List Char × List Char) :=
  [("~~/components/scaffold-eth/Input/AddressInput".data, COMPONENT_TARGET),
   ("~~/components/scaffold-eth/Input/EtherInput".data, COMPONENT_TARGET),
   ("~~/components/scaffold-eth/Input".data, COMPONENT_TARGET),
   ("~~/components/scaffold-eth/Address/Address".data, COMPONENT_TARGET),
   ("~~/components/scaffold-eth/Address".data, COMPONENT_TARGET)]

/-- The five nested deprecated sub-paths recognised by
`determineTransform`, in the order of its disjunction. -/
def nestedLegacyPaths : List (List Char) :=
  ["~~/components/scaffold-eth/Input".data,
   "~~/components/scaffold-eth/Input/AddressInput".data,
   "~~/components/scaffold-eth/Input/EtherInput".data,
   "~~/components/scaffold-eth/Address/Address".data,
   "~~/components/scaffold-eth/Address".data]

/-- The transform object built by both branches of `determineTransform`
(the fields are identical in the two branches). -/
def componentsTransform : ImportTransform :=
  ⟨COMPONENT_TARGET, some COMPONENT_SPECIFIER_RENAMES,
   ("components import migrated to @scaffold-ui/components").data⟩

/-- Result of the JS bracket access `renameMap[name]` on the rename-map
object literal: an own property holding a rename rule; an inherited
`Object.prototype` member (a truthy function or object value whose
`newName` and `keepAlias` properties are `undefined`); or `undefined`
(falsy). -/
inductive RenameLookup where
  | rule (r : SpecifierRenameRule)
  | protoMember
  | absent
deriving DecidableEq, Repr

/-- The property names every plain object literal inherits from
`Object.prototype` (ECMA-262): bracket access with one of these names
on the rename map returns a truthy value that is not a rename rule. -/
def objectProtoMembers : List (List Char) :=
  ["constructor".data, "hasOwnProperty".data, "isPrototypeOf".data,
   "propertyIsEnumerable".data, "toLocaleString".data, "toString".data,
   "valueOf".data, "__proto__".data, "__defineGetter__".data,
   "__defineSetter__".data, "__lookupGetter__".data, "__lookupSetter__".data]

/-- JS bracket access `renameMap[name]`: an own key wins; otherwise the
prototype chain supplies the inherited `Object.prototype` members; any
other name yields `undefined`. -/
def lookupRename (renameMap : List (List Char × SpecifierRenameRule))
    (name : List Char) : RenameLookup :=
  match renameMap.find? fun pr => pr.1 == name with
  | some pr => .rule pr.2
  | none => if name ∈ objectProtoMembers then .protoMember else .absent

/-- Source `determineTransform`. -/
def determineTransform (legacyPath : List Char) (specifiers : List (List Char)) :
    Option ImportTransform :=
  if bareLegacyPath.isPrefixOf legacyPath then
    if legacyPath = bareLegacyPath then
      if specifiers.any fun s => decide (s ∈ LEGACY_COMPONENT_SPECIFIERS) then
        some componentsTransform
      else none
    else if legacyPath = "~~/components/scaffold-eth/Input".data ∨
        legacyPath = "~~/components/scaffold-eth/Input/AddressInput".data ∨
        legacyPath = "~~/components/scaffold-eth/Input/EtherInput".data ∨
        legacyPath = "~~/components/scaffold-eth/Address/Address".data ∨
        legacyPath = "~~/components/scaffold-eth/Address".data then
      some componentsTransform
    else none
  else none

/-- The keyword stripped by the `type ` marker test. -/
def typeMarker : List Char := "type ".data

/--
`parseNamedImports` of the source: fold over the clause tokens; a token
whose trimmed text is empty becomes an opaque filler entry, otherwise
the leading/trailing whitespace is split off via `indexOf(trimmed)`
(which always finds the trim position: the trimmed text starts with a
non-whitespace character, so it cannot occur earlier inside the leading
whitespace; the `getD 0` default is unreachable), the optional `type `
marker is consumed, and an optional `\s+as\s+` infix splits imported
name and alias.
-/
def parseNamedImports (content : List Char) : NamedImportParseResult :=
  (clauseTokens content).foldl
    (fun acc tk =>
      let specText := tk.1
      let comma := tk.2
      let full := specText ++ comma
      let trimmed := jsTrim specText
      if trimmed = [] then
        ⟨acc.entries ++ [⟨full, none, none, none, none⟩], acc.specifiers⟩
      else
        let idx := (firstIndexOf specText trimmed).getD 0
        let leadingWhitespace := specText.take idx
        let trailingWhitespace := specText.drop (idx + trimmed.length)
        let td := if typeMarker.isPrefixOf trimmed then
            (true, jsTrim (trimmed.drop 5))
          else (false, trimmed)
        let ia := match findAsMatch td.2 with
          | some (i, len) => (jsTrim (td.2.take i), some (jsTrim (td.2.drop (i + len))))
          | none => (td.2, (none : Option (List Char)))
        ⟨acc.entries ++
          [⟨full, some ⟨td.1, ia.1, ia.2⟩, some leadingWhitespace,
            some trailingWhitespace, some comma⟩],
         acc.specifiers ++ [ia.1]⟩)
    ⟨[], []⟩

/--
The body of the `entries.map` of `buildNamedImport`: filler entries are
emitted verbatim; parsed entries are rebuilt from the parsed parts.
When the lookup hits an inherited `Object.prototype` member, the truthy
value makes the code take the rename branch with `rule.newName` and
`rule.keepAlias` both `undefined`: the imported name becomes `undefined`,
which JS string interpolation (in the `type` template, in `+=` for the
alias clause, and in the final template) renders as the text
`undefined` — modelled by `importedText`.  The `if (alias)` of the
source tests JS string truthiness, so an empty alias string attaches no
` as ` clause.
-/
def buildNamedImportEntry (renameMap : List (List Char × SpecifierRenameRule))
    (entry : NamedImportEntry) : List Char :=
  match entry.spec with
  | none => entry.raw
  | some sp =>
    let rule := lookupRename renameMap sp.imported
    let imported : Option (List Char) := match rule with
      | .rule r => some r.newName
      | .protoMember => none
      | .absent => some sp.imported
    let al := match rule with
      | .rule r =>
        (match sp.aliasName with
         | some a => some a
         | none => if r.keepAlias then some sp.imported else none)
      | .protoMember => sp.aliasName
      | .absent => sp.aliasName
    let importedText := match imported with
      | some t => t
      | none => "undefined".data
    let specText := if sp.isType then typeMarker ++ importedText else importedText
    let specText := match al with
      | some a => if a = [] then specText else specText ++ " as ".data ++ a
      | none => specText
    entry.leadingWhitespace.getD [] ++ specText ++
      entry.trailingWhitespace.getD [] ++ entry.comma.getD []

/-- Source `buildNamedImport`: `entries.map(...).join("")`. -/
def buildNamedImport (entries : List NamedImportEntry)
    (renameMap : List (List Char × SpecifierRenameRule)) : List Char :=
  (entries.map (buildNamedImportEntry renameMap)).flatten

/-- Maximal leading run of `[\w$]` characters (the deterministic greedy
value before backtracking). -/
def identRun : List Char → Nat
  | [] => 0
  | c :: cs =>
    if c.isAlphanum || c = '_' || c = dollarChar then identRun cs + 1 else 0

/--
Backtracking over the length of the `[\w$]*` part of the default-import
regex: the greedy run is tried longest-first; for each candidate length
the greedy `\s*` takes the maximal whitespace run (a shorter run would
put a whitespace character where `,` or `from` is required) and then the
alternation `(?:,|from)` is tested.
-/
def tryIdent (c : Char) (v : List Char) : Nat → Option (List Char)
  | 0 =>
    let rest := v.drop 0
    let m := wsRun rest
    let after := rest.drop m
    if after.head? = some ',' || fromKw.isPrefixOf after then some [c] else none
  | j + 1 =>
    let rest := v.drop (j + 1)
    let m := wsRun rest
    let after := rest.drop m
    if after.head? = some ',' || fromKw.isPrefixOf after then some (c :: v.take (j + 1))
    else tryIdent c v j

/-- One attempt of `/import\s+([A-Za-z_$][\w$]*)\s*(?:,|from)/` at the
head of `u`; returns the captured identifier. -/
def defaultAt (u : List Char) : Option (List Char) :=
  if importKw.isPrefixOf u then
    let v := u.drop 6
    let k := wsRun v
    if k = 0 then none
    else
      match (v.drop k).head? with
      | none => none
      | some c =>
        if c.isAlpha || c = '_' || c = dollarChar then
          tryIdent c (v.drop (k + 1)) (identRun (v.drop (k + 1)))
        else none
  else none

/-- Leftmost match of the default-import regex: scan start positions. -/
def findDefault : List Char → Option (List Char)
  | [] => none
  | c :: cs =>
    match defaultAt (c :: cs) with
    | some name => some name
    | none => findDefault cs

/-- Source `extractDefaultImport`: whitespace-collapse the
statement, find the default binding identifier, and reject the reserved
word `type`. -/
def extractDefaultImport (statement : List Char) : Option (List Char) :=
  match findDefault (collapseWs statement) with
  | none => none
  | some name => if name = "type".data then none else some name

/-- The `namedResult` of `analyzeImportStatement`: the parse of the
first brace section, when there is one. -/
def statementNamedResult (fullStatement : List Char) : Option NamedImportParseResult :=
  (findBrace fullStatement).map fun x => parseNamedImports x.2

/-- The `specifiers` list of `analyzeImportStatement`: the named
specifiers, with the default import appended when present (the source's
`specifiers.push(defaultImport)`). -/
def statementSpecifiers (fullStatement : List Char) : List (List Char) :=
  (match statementNamedResult fullStatement with
   | some r => r.specifiers
   | none => []) ++
  (match extractDefaultImport fullStatement with
   | some d => [d]
   | none => [])

/-- Source `analyzeImportStatement`.  (The source's
`ImportAnalysis | undefined` return type is never `undefined`: every
path returns an analysis.) -/
def analyzeImportStatement (fullStatement legacyPath : List Char) : ImportAnalysis :=
  let namedSectionMatch := findBrace fullStatement
  let namedResult := statementNamedResult fullStatement
  let defaultImport := extractDefaultImport fullStatement
  let specifiers := statementSpecifiers fullStatement
  match determineTransform legacyPath specifiers with
  | none => ⟨fullStatement, fullStatement, specifiers, defaultImport, none⟩
  | some t =>
    let updated1 := jsReplace fullStatement legacyPath t.newPath
    let updatedStatement :=
      match namedSectionMatch, t.renameSpecifiers, namedResult with
      | some sect, some renames, some nr =>
        jsReplace updated1 sect.1
          (lbrace :: (buildNamedImport nr.entries renames ++ [rbrace]))
      | _, _, _ => updated1
    ⟨fullStatement, updatedStatement, specifiers, defaultImport, some t⟩

/-- The summary line pushed for an applied import transform. -/
def importSummaryLine (t : ImportTransform) : List Char :=
  "import → ".data ++ t.description

/-- The summary line pushed for an applied export-from transform. -/
def exportSummaryLine (t : ImportTransform) : List Char :=
  "export → ".data ++ t.description

/-- The summary line pushed for a raw fallback replacement. -/
def textSummaryLine (legacy modern : List Char) : List Char :=
  "text → ".data ++ legacy ++ " → ".data ++ modern

/-- One iteration of the import loop of `transformContent`: the state is
(working text, summary so far). -/
def importStep (st : List Char × List (List Char)) (m : List Char × List Char) :
    List Char × List (List Char) :=
  let analysis := analyzeImportStatement m.1 m.2
  match analysis.appliedTransform with
  | some t =>
    if analysis.updated ≠ m.1 then
      (jsReplace st.1 m.1 analysis.updated, st.2 ++ [importSummaryLine t])
    else st
  | none => st

/-- The import loop: matches are computed on the text before the loop
mutates it, as in the source (`Array.from` before the `for`). -/
def importPass (content : List Char) : List Char × List (List Char) :=
  (findMatches importKw content).foldl importStep (content, [])

/-- One iteration of the export-from loop of `transformContent`: the
transform resolver receives an empty specifier list, as in the source. -/
def exportStep (st : List Char × List (List Char)) (m : List Char × List Char) :
    List Char × List (List Char) :=
  match determineTransform m.2 [] with
  | some t =>
    let rewritten := jsReplace m.1 m.2 t.newPath
    if rewritten ≠ m.1 then
      (jsReplace st.1 m.1 rewritten, st.2 ++ [exportSummaryLine t])
    else st
  | none => st

/-- The export-from loop, over matches of the current working text. -/
def exportPass (content : List Char) : List Char × List (List Char) :=
  (findMatches exportKw content).foldl exportStep (content, [])

/-- One rule of the raw fallback pass. -/
def rawStep (st : List Char × List (List Char)) (pr : List Char × List Char) :
    List Char × List (List Char) :=
  if jsIncludes st.1 pr.1 then
    (splitJoin pr.1 pr.2 st.1, st.2 ++ [textSummaryLine pr.1 pr.2])
  else st

/-- The raw fallback pass over `RAW_PATH_REPLACEMENTS` in source order. -/
def rawPass (content : List Char) : List Char × List (List Char) :=
  RAW_PATH_REPLACEMENTS.foldl rawStep (content, [])

/-- Source `transformContent` (its `filePath` parameter is unused
there and omitted here): import loop, then export-from loop, then raw
fallback pass, with the summary lines accumulated in that order. -/
def transformContent (content : List Char) : List Char × List (List Char) :=
  let r1 := importPass content
  let r2 := exportPass r1.1
  let r3 := rawPass r2.1
  (r3.1, r1.2 ++ r2.2 ++ r3.2)

/-- The canonically spaced rendering of a parsed specifier, exactly as
`buildNamedImportEntry` renders an entry it does not rename: optional
`type ` marker, imported name, optional ` as alias` (dropped for the
falsy empty alias). -/
def canonicalSpecText (sp : NamedImportSpec) : List Char :=
  let base := if sp.isType then typeMarker ++ sp.imported else sp.imported
  match sp.aliasName with
  | some a => if a = [] then base else base ++ " as ".data ++ a
  | none => base

/-- C1 witness input: a bare-path import of a non-legacy specifier. -/
def stmtNonLegacy : List Char :=
  "import \x7b Foo \x7d from \"~~/components/scaffold-eth\";".data

/-- C2 input: unaliased `InputBase` import. -/
def stmtInputBase : List Char :=
  "import \x7b InputBase \x7d from \"~~/components/scaffold-eth\";".data

/-- C2 expected output for `stmtInputBase`. -/
def stmtInputBaseOut : List Char :=
  "import \x7b BaseInput as InputBase \x7d from \"@scaffold-ui/components\";".data

/-- C2 input: explicitly aliased `InputBase` import. -/
def stmtInputBaseAliased : List Char :=
  "import \x7b InputBase as MyInput \x7d from \"~~/components/scaffold-eth\";".data

/-- C2 expected output for `stmtInputBaseAliased`. -/
def stmtInputBaseAliasedOut : List Char :=
  "import \x7b BaseInput as MyInput \x7d from \"@scaffold-ui/components\";".data

/-- C3 failing input: the rewritten statement contains the `$&`
substitution pattern of `String.prototype.replace`. -/
def dollarInput : List Char :=
  "import \x7bAddress,$&\x7d from \"~~/components/scaffold-eth\";".data

/-- The output of one application of the transform to `dollarInput`: the
`$&` of the replacement string was expanded to the matched brace section
and then to the matched full statement, re-embedding the legacy import. -/
def dollarOnce : List Char :=
  ("import \x7bAddress,\x7bAddress,import \x7bAddress,$&\x7d from " ++
   "\"~~/components/scaffold-eth\";\x7d\x7d from \"@scaffold-ui/components\";").data

/-- The output of a second application of the transform to `dollarOnce`:
the re-embedded legacy import is rewritten again, so the content keeps
changing. -/
def dollarTwice : List Char :=
  ("import \x7bAddress,\x7bAddress,import \x7bAddress,\x7bAddress,\x7bAddress," ++
   "import \x7bAddress,import \x7bAddress,\x7bAddress,import \x7bAddress,$&\x7d from " ++
   "\"~~/components/scaffold-eth\";\x7d\x7d from \"@scaffold-ui/components\";\x7d\x7d from " ++
   "\"@scaffold-ui/components\";").data

/-- C4 input: a transformed import whose untouched second entry has
irregular internal whitespace around `as`. -/
def stmtIrregular : List Char :=
  "import \x7b Address, Foo  as  Bar \x7d from \"~~/components/scaffold-eth\";".data

/-- C4 actual output for `stmtIrregular`: the untouched entry is rebuilt
with single spaces. -/
def stmtIrregularOut : List Char :=
  "import \x7b Address, Foo as Bar \x7d from \"@scaffold-ui/components\";".data

/-- C4 input: a transformed import whose second specifier names an
inherited `Object.prototype` member. -/
def stmtProto : List Char :=
  "import \x7b Address, toString \x7d from \"~~/components/scaffold-eth\";".data

/-- C4 actual output for `stmtProto`: the inherited member made the
rename branch run with an `undefined` new name, rendered as the text
`undefined`. -/
def stmtProtoOut : List Char :=
  "import \x7b Address, undefined \x7d from \"@scaffold-ui/components\";".data

/-- C5 input: a bare-path export-from whose clause references the legacy
specifier `Address`. -/
def exportBare : List Char :=
  "export \x7b Address \x7d from \"~~/components/scaffold-eth\";".data

/-- C5 input: an export-from with a nested legacy path. -/
def exportNested : List Char :=
  "export \x7b Address \x7d from \"~~/components/scaffold-eth/Address\";".data

/-- C5 expected output for `exportNested`. -/
def exportNestedOut : List Char :=
  "export \x7b Address \x7d from \"@scaffold-ui/components\";".data

/-- C7 witness input: a file with no legacy reference. -/
def plainFile : List Char := "hello world".data

/-- C8 concrete input: a markdown file that is just the nested legacy
path, outside any import statement. -/
def mdNestedPath : List Char := "~~/components/scaffold-eth/Input/AddressInput".data

/-- C9 demo input: one import rewrite, one export rewrite and one raw
replacement in a single file. -/
def demoFile : List Char :=
  ("import \x7b Address \x7d from \"~~/components/scaffold-eth\";\n" ++
   "export \x7b Balance \x7d from \"~~/components/scaffold-eth/Address\";\n" ++
   "see ~~/components/scaffold-eth/Input for details\n").data

/-- C10 input: an import whose path merely extends a listed legacy
string and is covered by no rule. -/
def stmtExtendedPath : List Char :=
  "import \x7b Foo \x7d from \"~~/components/scaffold-eth/Input/Other\";".data

/-- C10 actual output: the raw pass replaced the legacy prefix inside
the path. -/
def stmtExtendedPathOut : List Char :=
  "import \x7b Foo \x7d from \"@scaffold-ui/components/Other\";".data

/-- Shape of every legacy search string of the raw pass: non-empty,
starts with `~`, contains no `@`. -/
def sepOk (x : List Char) : Prop := x ≠ [] ∧ x.head? = some '~' ∧ '@' ∉ x

/-- Shape of every replacement string of the raw pass: non-empty, starts
with `@`, contains no `~`. -/
def repOk (x : List Char) : Prop := x ≠ [] ∧ x.head? = some '@' ∧ '~' ∉ x

instance (x : List Char) : Decidable (sepOk x) := by unfold sepOk; infer_instance

instance (x : List Char) : Decidable (repOk x) := by unfold repOk; infer_instance

/-! ### Helper lemmas -/

/-- The search `firstIndexOf` fails exactly on non-occurrence. -/
theorem firstIndexOf_eq_none : ∀ (s pat : List Char),
    firstIndexOf s pat = none → ¬ pat <:+: s := by
  intro s
  induction s with
  | nil =>
    intro pat h hinf
    have hp := List.eq_nil_of_infix_nil hinf
    subst hp
    rw [firstIndexOf] at h
    simp [List.isPrefixOf] at h
  | cons c cs ih =>
    intro pat h hinf
    rw [firstIndexOf] at h
    by_cases hp : pat.isPrefixOf (c :: cs)
    · simp [hp] at h
    · simp only [hp, Bool.false_eq_true, if_false, Option.map_eq_none'] at h
      rcases List.infix_cons_iff.1 hinf with h1 | h2
      · exact hp ( List.isPrefixOf_iff_prefix.2 h1)
      · exact ih pat h h2

/-- The search `firstIndexOf` returns the least occurrence index. -/
theorem firstIndexOf_eq_some : ∀ (s pat : List Char) (i : Nat),
    firstIndexOf s pat = some i →
    pat <+: s.drop i ∧ ∀ j, j < i → ¬ pat <+: s.drop j := by
  intro s
  induction s with
  | nil =>
    intro pat i h
    rw [firstIndexOf] at h
    by_cases hp : pat.isPrefixOf ([] : List Char)
    · simp only [hp, if_true, Option.some.injEq] at h
      subst h
      exact ⟨ List.isPrefixOf_iff_prefix.1 hp, fun j hj => absurd hj (Nat.not_lt_zero j)⟩
    · simp [hp] at h
  | cons c cs ih =>
    intro pat i h
    rw [firstIndexOf] at h
    by_cases hp : pat.isPrefixOf (c :: cs)
    · simp only [hp, if_true, Option.some.injEq] at h
      subst h
      exact ⟨ List.isPrefixOf_iff_prefix.1 hp, fun j hj => absurd hj (Nat.not_lt_zero j)⟩
    · simp only [hp, Bool.false_eq_true, if_false, Option.map_eq_some'] at h
      obtain ⟨i', hi', rfl⟩ := h
      obtain ⟨h1, h2⟩ := ih pat i' hi'
      refine ⟨h1, fun j hj => ?_⟩
      match j with
      | 0 => exact fun hc => hp ( List.isPrefixOf_iff_prefix.2 hc)
      | j' + 1 => exact h2 j' (by omega)

/-- Occurrence from a successful `jsIncludes`. -/
theorem occurs_of_jsIncludes {s p : List Char} (h : jsIncludes s p = true) :
    p <:+: s := by
  unfold jsIncludes at h
  rcases hfi : firstIndexOf s p with _ | i
  · rw [hfi] at h; simp at h
  · have h1 := (firstIndexOf_eq_some s p i hfi).1
    exact (h1.isInfix).trans (List.drop_suffix i s).isInfix

/-- Non-occurrence gives a failing `jsIncludes`. -/
theorem jsIncludes_eq_false {s p : List Char} (h : ¬ p <:+: s) :
    jsIncludes s p = false := by
  cases hj : jsIncludes s p
  · rfl
  · exact absurd (occurs_of_jsIncludes hj) h

/-- An occurrence strictly inside `s.take i` occurs in `s` before `i`,
contradicting minimality of `firstIndexOf`. -/
theorem not_occurs_take_firstIndexOf {s pat : List Char} {i : Nat}
    (h : firstIndexOf s pat = some i) (hne : pat ≠ []) :
    ¬ pat <:+: s.take i := by
  intro hinf
  obtain ⟨x, y, hxy⟩ := hinf
  have hj : pat <+: (s.take i).drop x.length := by
    have : (s.take i).drop x.length = pat ++ y := by
      rw [← hxy, List.append_assoc, List.drop_left]
    exact this ▸ List.prefix_append pat y
  have hlt : x.length < i := by
    have hlen : x.length + pat.length + y.length = (s.take i).length := by
      rw [← hxy]; simp; omega
    have : (s.take i).length ≤ i := by simp
    have hpat : 0 < pat.length := List.length_pos.2 hne
    omega
  have hpre : pat <+: s.drop x.length := by
    have h1 : (s.take i).drop x.length = (s.drop x.length).take (i - x.length) :=
      List.drop_take i x.length s
    rw [h1] at hj
    exact hj.trans ( List.take_prefix _ _)
  exact (firstIndexOf_eq_some s pat i h).2 x.length hlt hpre

/--
Occurrence decomposition across a replacement: an occurrence of a string
that starts with `~` and contains no `@` inside `a ++ r ++ c`, where `r`
starts with `@` and contains no `~`, lies entirely inside `a` or
entirely inside `c` (it cannot cover the head of `r`, since it has no
`@`, and it cannot start inside `r`, since `r` has no `~`).
-/
theorem occurs_beside {p a r c : List Char}
    (hpn : p ≠ []) (hph : p.head? = some '~') (hrh : r.head? = some '@')
    (hnr : '~' ∉ r) (hnp : '@' ∉ p)
    (h : p <:+: a ++ r ++ c) : p <:+: a ∨ p <:+: c := by
  obtain ⟨s, t, hw⟩ := h
  obtain ⟨p', rfl⟩ : ∃ p', p = '~' :: p' := by
    cases p with
    | nil => simp at hph
    | cons p0 p' =>
      refine ⟨p', ?_⟩
      have : p0 = '~' := by simpa using hph
      rw [this]
  obtain ⟨r', rfl⟩ : ∃ r', r = '@' :: r' := by
    cases r with
    | nil => simp at hrh
    | cons r0 r' =>
      refine ⟨r', ?_⟩
      have : r0 = '@' := by simpa using hrh
      rw [this]
  have hL : s.length + (p'.length + 1) + t.length =
      a.length + (r'.length + 1) + c.length := by
    have := congrArg List.length hw
    simp only [List.length_append, List.length_cons] at this
    omega
  by_cases h1 : s.length + ('~' :: p').length ≤ a.length
  · left
    refine ⟨s, t.take (a.length - (s ++ '~' :: p').length), ?_⟩
    have ha : List.take a.length (s ++ '~' :: p' ++ t) = a := by
      rw [hw, List.append_assoc, List.take_left]
    have h4 : List.take a.length (s ++ '~' :: p') = s ++ '~' :: p' :=
      List.take_of_length_le (by simp only [List.length_append]; omega)
    calc s ++ '~' :: p' ++ t.take (a.length - (s ++ '~' :: p').length)
        = List.take a.length (s ++ '~' :: p' ++ t) := by
          rw [List.take_append_eq_append_take, h4]
      _ = a := ha
  · by_cases h2 : a.length + ('@' :: r').length ≤ s.length
    · right
      have h2' : a.length + (r'.length + 1) ≤ s.length := by
        simpa only [List.length_cons] using h2
      have h5 : List.drop (a.length + ('@' :: r').length) (a ++ '@' :: r') = [] :=
        List.drop_of_length_le (by simp only [List.length_append]; omega)
      have hc : List.drop (a.length + ('@' :: r').length) (s ++ '~' :: p' ++ t) = c := by
        rw [hw, List.drop_append_eq_append_drop, h5,
          List.nil_append, List.length_append, Nat.sub_self, List.drop_zero]
      have hsplit : List.drop (a.length + ('@' :: r').length) (s ++ '~' :: p' ++ t) =
          s.drop (a.length + ('@' :: r').length) ++ ('~' :: p' ++ t) := by
        rw [List.append_assoc, List.drop_append_eq_append_drop,
          show a.length + ('@' :: r').length - s.length = 0 from by
            simp only [List.length_cons]; omega,
          List.drop_zero]
      refine ⟨s.drop (a.length + ('@' :: r').length), t, ?_⟩
      rw [List.append_assoc, ← hsplit, hc]
    · exfalso
      simp only [List.length_cons] at h1 h2
      by_cases h3 : s.length ≤ a.length
      · -- the occurrence covers the head of `r`, so `@` would be in `p`
        have hlt : a.length < (s ++ '~' :: p' ++ t).length := by
          simp only [List.length_append, List.length_cons]
          omega
        have hidx1 : (s ++ '~' :: p' ++ t)[a.length] = '@' := by
          rw [List.getElem_of_eq (by rw [hw, List.append_assoc]) hlt,
            List.getElem_append_right (le_refl a.length)]
          simp
        have hidx2 : (s ++ '~' :: p' ++ t)[a.length] ∈ ('~' :: p') := by
          rw [List.getElem_of_eq (List.append_assoc s ('~' :: p') t) hlt,
            List.getElem_append_right h3]
          have hbound : a.length - s.length < ('~' :: p').length := by
            simp only [List.length_cons]
            omega
          rw [List.getElem_append_left hbound]
          exact List.getElem_mem _
        exact hnp (hidx1 ▸ hidx2)
      · -- the occurrence starts inside `r`, so `~` would be in `r`
        have hlt : s.length < (s ++ '~' :: p' ++ t).length := by
          simp only [List.length_append, List.length_cons]
          omega
        have hidx1 : (s ++ '~' :: p' ++ t)[s.length] = '~' := by
          rw [List.getElem_of_eq (List.append_assoc s ('~' :: p') t) hlt,
            List.getElem_append_right (le_refl s.length)]
          simp
        have hidx2 : (s ++ '~' :: p' ++ t)[s.length] ∈ ('@' :: r') := by
          rw [List.getElem_of_eq (by rw [hw, List.append_assoc]) hlt,
            List.getElem_append_right (by omega)]
          have hbound : s.length - a.length < ('@' :: r').length := by
            simp only [List.length_cons]
            omega
          rw [List.getElem_append_left hbound]
          exact List.getElem_mem _
        exact hnr (hidx1 ▸ hidx2)

/-- After replacing every occurrence of `sep` (with enough fuel), `sep`
no longer occurs: the replacement string cannot contain it, recreate it
across a boundary, or leave one before the first replaced occurrence. -/
theorem splitJoinAux_no_sep {sep rep : List Char}
    (hs1 : sep.head? = some '~') (hs2 : '@' ∉ sep)
    (hr1 : rep.head? = some '@') (hr2 : '~' ∉ rep) :
    ∀ (fuel : Nat) (s : List Char), s.length ≤ fuel →
      ¬ sep <:+: splitJoinAux sep rep fuel s := by
  have hsn : sep ≠ [] := by rintro rfl; simp at hs1
  intro fuel
  induction fuel with
  | zero =>
    intro s hls hinf
    have : s = [] := List.length_eq_zero.1 (Nat.le_zero.1 hls)
    subst this
    rw [splitJoinAux] at hinf
    exact hsn (List.eq_nil_of_infix_nil hinf)
  | succ fuel ih =>
    intro s hls hinf
    rw [splitJoinAux] at hinf
    rcases hfi : firstIndexOf s sep with _ | i
    · rw [hfi] at hinf
      exact firstIndexOf_eq_none s sep hfi hinf
    · rw [hfi] at hinf
      rcases occurs_beside hsn hs1 hr1 hr2 hs2 hinf with hL | hR
      · exact not_occurs_take_firstIndexOf hfi hsn hL
      · have hfuel : (s.drop (i + sep.length)).length ≤ fuel := by
          have hone : 1 ≤ sep.length := List.length_pos.2 hsn
          simp only [List.length_drop]
          omega
        exact ih (s.drop (i + sep.length)) hfuel hR

/-- Replacing occurrences of any separator cannot introduce an
occurrence of a string shaped like a legacy path. -/
theorem splitJoinAux_keeps {sep rep p : List Char}
    (hp1 : p.head? = some '~') (hp2 : '@' ∉ p)
    (hr1 : rep.head? = some '@') (hr2 : '~' ∉ rep) :
    ∀ (fuel : Nat) (s : List Char), ¬ p <:+: s →
      ¬ p <:+: splitJoinAux sep rep fuel s := by
  have hpn : p ≠ [] := by rintro rfl; simp at hp1
  intro fuel
  induction fuel with
  | zero =>
    intro s hs hinf
    rw [splitJoinAux] at hinf
    exact hs hinf
  | succ fuel ih =>
    intro s hs hinf
    rw [splitJoinAux] at hinf
    rcases hfi : firstIndexOf s sep with _ | i
    · rw [hfi] at hinf
      exact hs hinf
    · rw [hfi] at hinf
      rcases occurs_beside hpn hp1 hr1 hr2 hp2 hinf with hL | hR
      · exact hs (hL.trans ( List.take_prefix i s).isInfix)
      · exact ih (s.drop (i + sep.length))
          (fun ho => hs (ho.trans (List.drop_suffix _ s).isInfix)) hR

/-- A raw-pass rule leaves no occurrence of its own legacy string. -/
theorem rawStep_no_self (st : List Char × List (List Char))
    (pr : List Char × List Char) (hsep : sepOk pr.1) (hrep : repOk pr.2) :
    ¬ pr.1 <:+: (rawStep st pr).1 := by
  unfold rawStep
  rcases hj : jsIncludes st.1 pr.1 with _ | _
  · simp only [hj, Bool.false_eq_true, if_false]
    intro hinf
    unfold jsIncludes at hj
    rcases hfi : firstIndexOf st.1 pr.1 with _ | i
    · exact firstIndexOf_eq_none _ _ hfi hinf
    · rw [hfi] at hj; simp at hj
  · simp only [hj, if_true]
    exact splitJoinAux_no_sep hsep.2.1 hsep.2.2 hrep.2.1 hrep.2.2 _ _ (le_refl _)

/-- A raw-pass rule cannot reintroduce an absent legacy-shaped string. -/
theorem rawStep_keeps (st : List Char × List (List Char))
    (pr : List Char × List Char) (p : List Char)
    (hp : ¬ p <:+: st.1) (hpok : sepOk p) (hrep : repOk pr.2) :
    ¬ p <:+: (rawStep st pr).1 := by
  unfold rawStep
  rcases hj : jsIncludes st.1 pr.1 with _ | _
  · simpa only [hj, Bool.false_eq_true, if_false] using hp
  · simp only [hj, if_true]
    exact splitJoinAux_keeps hpok.2.1 hpok.2.2 hrep.2.1 hrep.2.2 _ _ hp

/-- Folding raw-pass rules preserves absence of a legacy-shaped string. -/
theorem rawFold_keeps : ∀ (l : List (List Char × List Char))
    (st : List Char × List (List Char)) (p : List Char),
    (∀ pr ∈ l, repOk pr.2) → sepOk p → ¬ p <:+: st.1 →
    ¬ p <:+: (l.foldl rawStep st).1 := by
  intro l
  induction l with
  | nil => intro st p _ _ hp; exact hp
  | cons hd tl ih =>
    intro st p hrep hpok hp
    rw [List.foldl_cons]
    exact ih (rawStep st hd) p (fun pr hpr => hrep pr (List.mem_cons_of_mem hd hpr))
      hpok (rawStep_keeps st hd p hp hpok (hrep hd (List.mem_cons_self hd tl)))

/-- After folding the raw-pass rules, none of their legacy strings
occurs in the resulting text. -/
theorem rawFold_no_sep : ∀ (l : List (List Char × List Char))
    (st : List Char × List (List Char)) (p : List Char),
    (∀ pr ∈ l, sepOk pr.1 ∧ repOk pr.2) → (∃ pr ∈ l, p = pr.1) →
    ¬ p <:+: (l.foldl rawStep st).1 := by
  intro l
  induction l with
  | nil => intro st p _ hex; simp at hex
  | cons hd tl ih =>
    intro st p hok hex
    rw [List.foldl_cons]
    rcases hex with ⟨pr, hpr, rfl⟩
    rcases List.mem_cons.1 hpr with rfl | htl
    · have hhd := hok pr (List.mem_cons_self pr tl)
      exact rawFold_keeps tl (rawStep st pr) pr.1
        (fun q hq => (hok q (List.mem_cons_of_mem pr hq)).2) hhd.1
        (rawStep_no_self st pr hhd.1 hhd.2)
    · exact ih (rawStep st hd) pr.1
        (fun q hq => hok q (List.mem_cons_of_mem hd hq)) ⟨pr, htl, rfl⟩

/-- The path captured by the regex tail is a slice of the scanned text. -/
theorem tailMatch_path_occurs {u : List Char} {n : Nat} {p : List Char}
    (h : tailMatch u = some (n, p)) : p <:+: u := by
  have key : ∀ (k1 k2 j : Nat), ((u.drop k1).drop k2).take j <:+: u := by
    intro k1 k2 j
    rw [List.drop_drop]
    exact (( List.take_prefix j (u.drop (k1 + k2))).isInfix).trans
      (List.drop_suffix (k1 + k2) u).isInfix
  unfold tailMatch at h
  simp only [] at h
  by_cases hf : fromKw.isPrefixOf u
  swap
  · rw [if_neg hf] at h; simp at h
  rw [if_pos hf] at h
  by_cases hw0 : wsRun (u.drop 4) = 0
  · rw [if_pos hw0] at h; simp at h
  rw [if_neg hw0] at h
  rcases hq1 : ((u.drop 4).drop (wsRun (u.drop 4))).head? with _ | q1
  · rw [hq1] at h; simp at h
  rw [hq1] at h
  simp only [] at h
  by_cases hiq1 : isQuote q1
  swap
  · rw [if_neg hiq1] at h; simp at h
  rw [if_pos hiq1] at h
  by_cases hr0 : nonQuoteRun ((u.drop 4).drop (wsRun (u.drop 4) + 1)) = 0
  · rw [if_pos hr0] at h; simp at h
  rw [if_neg hr0] at h
  rcases hq2 : (((u.drop 4).drop (wsRun (u.drop 4) + 1)).drop
      (nonQuoteRun ((u.drop 4).drop (wsRun (u.drop 4) + 1)))).head? with _ | q2
  · rw [hq2] at h; simp at h
  rw [hq2] at h
  simp only [] at h
  by_cases hiq2 : isQuote q2
  swap
  · rw [if_neg hiq2] at h; simp at h
  rw [if_pos hiq2] at h
  simp only [Option.some.injEq, Prod.mk.injEq] at h
  obtain ⟨-, h2⟩ := h
  subst h2
  exact key _ _ _

/-- The path captured by the lazy search is a slice of the scanned text. -/
theorem findTail_path_occurs : ∀ {u : List Char} {o n : Nat} {p : List Char},
    findTail u = some (o, n, p) → p <:+: u := by
  intro u
  induction u with
  | nil => intro o n p h; simp [findTail] at h
  | cons c cs ih =>
    intro o n p h
    rw [findTail] at h
    rcases htm : tailMatch (c :: cs) with _ | x
    · rw [htm] at h
      simp only [Option.map_eq_some'] at h
      obtain ⟨⟨o', n', p'⟩, hy, hz⟩ := h
      simp only [Prod.mk.injEq] at hz
      obtain ⟨-, -, rfl⟩ := hz
      exact List.infix_cons_iff.2 (Or.inr (ih hy))
    · rw [htm] at h
      obtain ⟨n', p'⟩ := x
      simp only [Option.some.injEq, Prod.mk.injEq] at h
      obtain ⟨-, -, rfl⟩ := h
      exact tailMatch_path_occurs htm

/-- The path captured by one statement-regex match attempt is a slice of
the scanned text. -/
theorem matchFrom_path_occurs {kw l : List Char} {n : Nat} {p : List Char}
    (h : matchFrom kw l = some (n, p)) : p <:+: l := by
  unfold matchFrom at h
  by_cases hk : kw.isPrefixOf l
  swap
  · rw [if_neg hk] at h; simp at h
  rw [if_pos hk] at h
  rcases hh : (l.drop kw.length).head? with _ | c
  · rw [hh] at h; simp at h
  rw [hh] at h
  simp only [] at h
  by_cases hsp : isJsSpace c
  swap
  · rw [if_neg hsp] at h; simp at h
  rw [if_pos hsp] at h
  rcases hft : findTail (l.drop (kw.length + 1)) with _ | x
  · rw [hft] at h; simp at h
  rw [hft] at h
  obtain ⟨o, n', p'⟩ := x
  simp only [Option.some.injEq, Prod.mk.injEq] at h
  obtain ⟨-, rfl⟩ := h
  exact (findTail_path_occurs hft).trans (List.drop_suffix _ l).isInfix

/-- Every path emitted by the statement scanner is a slice of the
scanned text. -/
theorem findMatchesAux_path_occurs {kw : List Char} : ∀ (fuel : Nat) (l : List Char)
    (mp : List Char × List Char), mp ∈ findMatchesAux kw fuel l → mp.2 <:+: l := by
  intro fuel
  induction fuel with
  | zero => intro l mp h; simp [findMatchesAux] at h
  | succ fuel ih =>
    intro l mp h
    match l with
    | [] => simp [findMatchesAux] at h
    | c :: cs =>
      rw [findMatchesAux] at h
      rcases hm : matchFrom kw (c :: cs) with _ | x
      · rw [hm] at h
        exact (ih cs mp h).trans (List.infix_cons_iff.2 (Or.inr (List.infix_refl cs)))
      · rw [hm] at h
        obtain ⟨n, p⟩ := x
        rcases List.mem_cons.1 h with rfl | htl
        · exact matchFrom_path_occurs hm
        · exact (ih _ mp htl).trans (List.drop_suffix n (c :: cs)).isInfix

/-- Every path emitted by the statement locator is a slice of the text. -/
theorem findMatches_path_occurs {kw l : List Char} {mp : List Char × List Char}
    (h : mp ∈ findMatches kw l) : mp.2 <:+: l :=
  findMatchesAux_path_occurs l.length l mp h

/-- A fold whose step fixes the initial state returns it. -/
theorem foldl_fixed {α β : Type} {f : α → β → α} : ∀ (l : List β) (a : α),
    (∀ b ∈ l, f a b = a) → l.foldl f a = a := by
  intro l
  induction l with
  | nil => intro a _; rfl
  | cons hd tl ih =>
    intro a hfix
    rw [List.foldl_cons, hfix hd (List.mem_cons_self hd tl)]
    exact ih a fun b hb => hfix b (List.mem_cons_of_mem hd hb)

/-- The resolver `determineTransform` ignores paths outside the deprecated prefix. -/
theorem determineTransform_not_legacy {path : List Char} (specs : List (List Char))
    (h : bareLegacyPath.isPrefixOf path = false) :
    determineTransform path specs = none := by
  unfold determineTransform
  rw [h]
  simp

/-- On a non-legacy path the analysis applies no transform and keeps the
statement unchanged. -/
theorem analyzeImportStatement_not_legacy {full path : List Char}
    (h : bareLegacyPath.isPrefixOf path = false) :
    (analyzeImportStatement full path).appliedTransform = none ∧
    (analyzeImportStatement full path).updated = full := by
  unfold analyzeImportStatement
  simp only []
  rw [determineTransform_not_legacy _ h]
  exact ⟨rfl, rfl⟩

/-- A path occurring in a text free of the deprecated prefix cannot
start with the deprecated prefix. -/
theorem not_legacy_of_occurs {s path : List Char}
    (hs : ¬ bareLegacyPath <:+: s) (hpath : path <:+: s) :
    bareLegacyPath.isPrefixOf path = false := by
  cases hb : bareLegacyPath.isPrefixOf path
  · rfl
  · exact absurd ((( List.isPrefixOf_iff_prefix.1 hb).isInfix).trans hpath) hs

/-- The import loop of a text free of the deprecated prefix is the
identity with an empty summary. -/
theorem importPass_not_legacy {s : List Char} (hs : ¬ bareLegacyPath <:+: s) :
    importPass s = (s, []) := by
  unfold importPass
  refine foldl_fixed _ _ fun m hm => ?_
  unfold importStep
  have hpath := not_legacy_of_occurs hs (findMatches_path_occurs hm)
  simp only []
  rw [(analyzeImportStatement_not_legacy hpath).1]

/-- The export-from loop of a text free of the deprecated prefix is the
identity with an empty summary. -/
theorem exportPass_not_legacy {s : List Char} (hs : ¬ bareLegacyPath <:+: s) :
    exportPass s = (s, []) := by
  unfold exportPass
  refine foldl_fixed _ _ fun m hm => ?_
  unfold exportStep
  have hpath := not_legacy_of_occurs hs (findMatches_path_occurs hm)
  simp only []
  rw [determineTransform_not_legacy _ hpath]

/-- The raw pass of a text free of the deprecated prefix is the identity
with an empty summary. -/
theorem rawPass_not_legacy {s : List Char} (hs : ¬ bareLegacyPath <:+: s) :
    rawPass s = (s, []) := by
  unfold rawPass
  refine foldl_fixed _ _ fun pr hpr => ?_
  unfold rawStep
  have hpre : bareLegacyPath <+: pr.1 := by
    have hall : ∀ q ∈ RAW_PATH_REPLACEMENTS,
        decide (bareLegacyPath <+: q.1) = true := List.all_eq_true.1 (by decide)
    exact of_decide_eq_true (hall pr hpr)
  have hinc : jsIncludes s pr.1 = false :=
    jsIncludes_eq_false fun ho => hs ((hpre.isInfix).trans ho)
  rw [hinc]
  simp

/-- The final text of the transform is the raw pass applied after the
two statement loops. -/
theorem transformContent_fst (s : List Char) :
    (transformContent s).1 = (rawPass (exportPass (importPass s).1).1).1 := by
  unfold transformContent
  simp only []

/-- The summary of the transform is the concatenation of the three pass
summaries. -/
theorem transformContent_snd (s : List Char) :
    (transformContent s).2 = (importPass s).2 ++ (exportPass (importPass s).1).2 ++
      (rawPass (exportPass (importPass s).1).1).2 := by
  unfold transformContent
  simp only []

/-- Stepwise evaluation of the final text of the transform through
explicit intermediate results of the three passes. -/
theorem transform_fst_steps {u v w x : List Char} {l1 l2 l3 : List (List Char)}
    (hi : importPass u = (v, l1)) (he : exportPass v = (w, l2))
    (hr : rawPass w = (x, l3)) : (transformContent u).1 = x := by
  rw [transformContent_fst, hi]
  simp only []
  rw [he]
  simp only []
  rw [hr]

/-- Stepwise evaluation of the whole transform through explicit
intermediate results of the three passes. -/
theorem transformContent_steps {u v w x : List Char} {l1 l2 l3 : List (List Char)}
    (hi : importPass u = (v, l1)) (he : exportPass v = (w, l2))
    (hr : rawPass w = (x, l3)) : transformContent u = (x, l1 ++ l2 ++ l3) := by
  unfold transformContent
  simp only []
  rw [hi]
  simp only []
  rw [he]
  simp only []
  rw [hr]

/-- Lines appended by the import loop satisfy a predicate that holds of
every import summary line. -/
theorem importFold_summary (P : List Char → Bool)
    (hP : ∀ t, P (importSummaryLine t) = true) :
    ∀ (ms : List (List Char × List Char)) (st : List Char × List (List Char)),
    st.2.all P = true → ((ms.foldl importStep st).2.all P) = true := by
  intro ms
  induction ms with
  | nil => intro st h; exact h
  | cons hd tl ih =>
    intro st h
    rw [List.foldl_cons]
    refine ih _ ?_
    unfold importStep
    simp only []
    rcases h1 : (analyzeImportStatement hd.1 hd.2).appliedTransform with _ | t
    · exact h
    · simp only []
      by_cases hu : (analyzeImportStatement hd.1 hd.2).updated ≠ hd.1
      · rw [if_pos hu]
        simp [List.all_append, h, hP t]
      · rw [if_neg hu]; exact h

/-- Lines appended by the export-from loop satisfy a predicate that
holds of every export summary line. -/
theorem exportFold_summary (P : List Char → Bool)
    (hP : ∀ t, P (exportSummaryLine t) = true) :
    ∀ (ms : List (List Char × List Char)) (st : List Char × List (List Char)),
    st.2.all P = true → ((ms.foldl exportStep st).2.all P) = true := by
  intro ms
  induction ms with
  | nil => intro st h; exact h
  | cons hd tl ih =>
    intro st h
    rw [List.foldl_cons]
    refine ih _ ?_
    unfold exportStep
    simp only []
    rcases h1 : determineTransform hd.2 [] with _ | t
    · exact h
    · simp only []
      by_cases hu : jsReplace hd.1 hd.2 t.newPath ≠ hd.1
      · rw [if_pos hu]
        simp [List.all_append, h, hP t]
      · rw [if_neg hu]; exact h

/-- Lines appended by the raw fallback pass satisfy a predicate that
holds of every text summary line. -/
theorem rawFold_summary (P : List Char → Bool)
    (hP : ∀ legacy modern, P (textSummaryLine legacy modern) = true) :
    ∀ (l : List (List Char × List Char)) (st : List Char × List (List Char)),
    st.2.all P = true → ((l.foldl rawStep st).2.all P) = true := by
  intro l
  induction l with
  | nil => intro st h; exact h
  | cons hd tl ih =>
    intro st h
    rw [List.foldl_cons]
    refine ih _ ?_
    unfold rawStep
    by_cases hinc : jsIncludes st.1 hd.1
    · rw [if_pos hinc]
      simp [List.all_append, h, hP hd.1 hd.2]
    · rw [if_neg hinc]; exact h

/-- Claim C7: the core transform is total (each pass is a total Lean
function), and on an input containing no legacy reference — no
occurrence of the deprecated prefix `~~/components/scaffold-eth`, which
every rule path and every raw replacement string starts with — the
returned content is identical to the input and the change summary is
empty. -/
theorem transform_total_passthrough (s : List Char)
    (hs : ¬ bareLegacyPath <:+: s) : transformContent s = (s, []) := by
  unfold transformContent
  rw [importPass_not_legacy hs]
  simp only []
  rw [exportPass_not_legacy hs]
  simp only []
  rw [rawPass_not_legacy hs]
  simp

/-- Claim C7 witness: a concrete legacy-free file passes through
unchanged. -/
theorem transform_total_passthrough_witness :
    ¬ (bareLegacyPath <:+: plainFile) ∧ transformContent plainFile = (plainFile, []) :=
  ⟨by decide, transform_total_passthrough plainFile (by decide)⟩

set_option maxHeartbeats 4000000 in
/-- Claim C8: the raw fallback pass eliminates every remaining
occurrence of each listed legacy string from the final output of the
transform, for arbitrary input text (including text outside any import
or export statement); and the replacement list is ordered so that
the nested path `~~/components/scaffold-eth/Input/AddressInput` is
replaced as a whole (yielding exactly the target package name) rather
than being partially matched by the shorter
`~~/components/scaffold-eth/Input` rule first. -/
theorem raw_fallback_complete :
    (∀ (s p : List Char), (∃ pr ∈ RAW_PATH_REPLACEMENTS, p = pr.1) →
      ¬ p <:+: (transformContent s).1)
    ∧ transformContent mdNestedPath =
      (COMPONENT_TARGET,
       [textSummaryLine "~~/components/scaffold-eth/Input/AddressInput".data
         COMPONENT_TARGET]) := by
  constructor
  · intro s p hp
    rw [transformContent_fst]
    have hall : ∀ q ∈ RAW_PATH_REPLACEMENTS, decide (sepOk q.1 ∧ repOk q.2) = true :=
      List.all_eq_true.1 (by decide)
    exact rawFold_no_sep RAW_PATH_REPLACEMENTS _ p
      (fun pr h => of_decide_eq_true (hall pr h)) hp
  · rfl

set_option maxHeartbeats 4000000 in
/-- Claim C8 witness: the universal part applied to a concrete text and
a concrete listed legacy string. -/
theorem raw_fallback_complete_witness :
    ¬ ("~~/components/scaffold-eth/Input".data <:+:
      (transformContent ("see ~~/components/scaffold-eth/Input today".data)).1) :=
  raw_fallback_complete.1 _ _ (by decide)

/-- Claim C9: the change summary is the concatenation of the import-loop
lines, then the export-loop lines, then the raw-pass lines, each group
produced in match order by its fold; every line of the first group
starts with `import → `, of the second with `export → `, of the third
with `text → `. -/
theorem summary_ordered (s : List Char) :
    (transformContent s).2 =
      (importPass s).2 ++ (exportPass (importPass s).1).2 ++
        (rawPass (exportPass (importPass s).1).1).2
    ∧ ((importPass s).2.all fun x => ("import → ".data).isPrefixOf x) = true
    ∧ ((exportPass (importPass s).1).2.all fun x => ("export → ".data).isPrefixOf x) = true
    ∧ ((rawPass (exportPass (importPass s).1).1).2.all
        fun x => ("text → ".data).isPrefixOf x) = true := by
  refine ⟨transformContent_snd s, ?_, ?_, ?_⟩
  · exact importFold_summary _
      (fun t => List.isPrefixOf_iff_prefix.2 (List.prefix_append _ _)) _ _ rfl
  · exact exportFold_summary _
      (fun t => List.isPrefixOf_iff_prefix.2 (List.prefix_append _ _)) _ _ rfl
  · exact rawFold_summary _
      (fun a b => List.isPrefixOf_iff_prefix.2 (List.prefix_append _ _)) _ _ rfl

/-- Claim C9 witness: the summary decomposition at a concrete file that
exercises all three groups. -/
theorem summary_ordered_witness :
    (transformContent demoFile).2 =
      (importPass demoFile).2 ++ (exportPass (importPass demoFile).1).2 ++
        (rawPass (exportPass (importPass demoFile).1).1).2 :=
  (summary_ordered demoFile).1

set_option maxHeartbeats 4000000 in
/-- Claim C10: the raw fallback pass rewrites a path that merely extends
a listed legacy string even though no rule covers that exact path: the
statement's path `~~/components/scaffold-eth/Input/Other` resolves to no
transform for any specifier list, yet the output file differs from the
input, the legacy prefix having been replaced by the target package
name. -/
theorem raw_extends_path_rewritten :
    transformContent stmtExtendedPath =
      (stmtExtendedPathOut,
       [textSummaryLine "~~/components/scaffold-eth/Input".data COMPONENT_TARGET])
    ∧ stmtExtendedPath ≠ stmtExtendedPathOut
    ∧ ∀ specs, determineTransform "~~/components/scaffold-eth/Input/Other".data specs
        = none := by
  refine ⟨by rfl, by decide, fun specs => rfl⟩

/-- Claim C3 (the code violates the spec's idempotence property): one
application of the transform to `dollarInput` produces `dollarOnce` —
the `$&` inside the statement is treated by `String.prototype.replace`
as a substitution pattern when the rebuilt brace section and then the
rewritten statement are substituted back, re-embedding the original
legacy import — and a second application changes the text again. -/
theorem idempotence_fails :
    (transformContent dollarInput).1 = dollarOnce
    ∧ (transformContent dollarOnce).1 = dollarTwice
    ∧ (transformContent (transformContent dollarInput).1).1 ≠
        (transformContent dollarInput).1 := by
  have hi1 : importPass dollarInput = (dollarOnce, [importSummaryLine componentsTransform]) := by rfl
  have he1 : exportPass dollarOnce = (dollarOnce, []) := by rfl
  have hr1 : rawPass dollarOnce = (dollarOnce, []) := by rfl
  have hi2 : importPass dollarOnce = (dollarTwice, [importSummaryLine componentsTransform]) := by rfl
  have he2 : exportPass dollarTwice = (dollarTwice, []) := by rfl
  have hr2 : rawPass dollarTwice = (dollarTwice, []) := by rfl
  have h1 : (transformContent dollarInput).1 = dollarOnce := transform_fst_steps hi1 he1 hr1
  have h2 : (transformContent dollarOnce).1 = dollarTwice := transform_fst_steps hi2 he2 hr2
  refine ⟨h1, h2, ?_⟩
  rw [h1, h2]
  decide

/-- Claim C1: for a statement whose captured path is exactly the bare
legacy path, the analysis applies a transform precisely when some
referenced specifier (named or default) is in the legacy-component
specifier set, and when no transform applies the statement text is kept
byte-identical. -/
theorem bare_path_needs_legacy_specifier (full : List Char) :
    ((analyzeImportStatement full bareLegacyPath).appliedTransform.isSome ↔
      ∃ s ∈ (analyzeImportStatement full bareLegacyPath).specifiers,
        s ∈ LEGACY_COMPONENT_SPECIFIERS)
    ∧ ((analyzeImportStatement full bareLegacyPath).appliedTransform = none →
      (analyzeImportStatement full bareLegacyPath).updated = full) := by
  have hpp : bareLegacyPath.isPrefixOf bareLegacyPath = true :=
    List.isPrefixOf_iff_prefix.2 (List.prefix_refl _)
  have hdt : determineTransform bareLegacyPath (statementSpecifiers full) =
      (if (statementSpecifiers full).any
          (fun s => decide (s ∈ LEGACY_COMPONENT_SPECIFIERS))
       then some componentsTransform else none) := by
    unfold determineTransform
    rw [hpp]
    simp
  have hspec : (analyzeImportStatement full bareLegacyPath).specifiers =
      statementSpecifiers full := by
    unfold analyzeImportStatement
    simp only []
    rcases hd : determineTransform bareLegacyPath (statementSpecifiers full) with _ | t
    · rfl
    · rfl
  cases hany : (statementSpecifiers full).any
      (fun s => decide (s ∈ LEGACY_COMPONENT_SPECIFIERS)) with
  | false =>
    have hnone : (analyzeImportStatement full bareLegacyPath).appliedTransform = none := by
      unfold analyzeImportStatement
      simp only []
      rw [hdt, hany]
      rfl
    have hupd : (analyzeImportStatement full bareLegacyPath).updated = full := by
      unfold analyzeImportStatement
      simp only []
      rw [hdt, hany]
      rfl
    refine ⟨?_, fun _ => hupd⟩
    rw [hnone, hspec]
    constructor
    · intro h; simp at h
    · rintro ⟨x, hx, hmem⟩
      have : (statementSpecifiers full).any
          (fun s => decide (s ∈ LEGACY_COMPONENT_SPECIFIERS)) = true :=
        List.any_eq_true.2 ⟨x, hx, decide_eq_true hmem⟩
      rw [hany] at this
      cases this
  | true =>
    have hsome : (analyzeImportStatement full bareLegacyPath).appliedTransform =
        some componentsTransform := by
      unfold analyzeImportStatement
      simp only []
      rw [hdt, hany]
      rfl
    refine ⟨?_, fun hc => by rw [hsome] at hc; exact Option.noConfusion hc⟩
    rw [hsome, hspec]
    refine ⟨fun _ => ?_, fun _ => by simp⟩
    obtain ⟨x, hx, hmem⟩ := List.any_eq_true.1 hany
    exact ⟨x, hx, of_decide_eq_true hmem⟩

/-- Claim C1 witness: a bare-path import of `Foo` resolves to no
transform and is kept byte-identical by the analysis. -/
theorem bare_path_needs_legacy_specifier_witness :
    (analyzeImportStatement stmtNonLegacy bareLegacyPath).updated = stmtNonLegacy :=
  (bare_path_needs_legacy_specifier stmtNonLegacy).2 (by rfl)

/-- Claim C2: a rename-rule entry without an explicit alias is rebuilt
with the original name kept as compatibility alias (`BaseInput as
InputBase`); an entry that already carries an explicit alias keeps it
(`BaseInput as MyInput`); and the two end-to-end example statements of
the spec rewrite accordingly. -/
theorem rename_keeps_alias :
    (∀ (raw : List Char) (lw tw cm : Option (List Char)) (isTy : Bool),
      buildNamedImportEntry COMPONENT_SPECIFIER_RENAMES
        ⟨raw, some ⟨isTy, "InputBase".data, none⟩, lw, tw, cm⟩ =
      lw.getD [] ++ ((if isTy then typeMarker ++ "BaseInput".data else "BaseInput".data)
          ++ " as ".data ++ "InputBase".data) ++ tw.getD [] ++ cm.getD [])
    ∧ (∀ (raw : List Char) (lw tw cm : Option (List Char)) (isTy : Bool)
        (a : List Char), a ≠ [] →
      buildNamedImportEntry COMPONENT_SPECIFIER_RENAMES
        ⟨raw, some ⟨isTy, "InputBase".data, some a⟩, lw, tw, cm⟩ =
      lw.getD [] ++ ((if isTy then typeMarker ++ "BaseInput".data else "BaseInput".data)
          ++ " as ".data ++ a) ++ tw.getD [] ++ cm.getD [])
    ∧ transformContent stmtInputBase =
        (stmtInputBaseOut, [importSummaryLine componentsTransform])
    ∧ transformContent stmtInputBaseAliased =
        (stmtInputBaseAliasedOut, [importSummaryLine componentsTransform]) := by
  refine ⟨?_, ?_, by rfl, by rfl⟩
  · intro raw lw tw cm isTy
    cases isTy <;> rfl
  · intro raw lw tw cm isTy a ha
    have hrule : lookupRename COMPONENT_SPECIFIER_RENAMES ("InputBase".data) =
        .rule ⟨"BaseInput".data, true⟩ := by rfl
    unfold buildNamedImportEntry
    simp only [hrule]
    rw [if_neg ha]

/-- Claim C2 witness: the explicit-alias rule applied to a concrete
aliased entry. -/
theorem rename_keeps_alias_witness :
    buildNamedImportEntry COMPONENT_SPECIFIER_RENAMES
      ⟨"InputBase as MyInput".data,
        some ⟨false, "InputBase".data, some ("MyInput".data)⟩,
        some [' '], some [' '], some []⟩ =
    (some [' '] : Option (List Char)).getD [] ++
      ((if false then typeMarker ++ "BaseInput".data else "BaseInput".data)
          ++ " as ".data ++ "MyInput".data) ++
      (some [' '] : Option (List Char)).getD [] ++
      (some ([] : List Char)).getD [] :=
  rename_keeps_alias.2.1 _ _ _ _ _ _ (by decide)

/-- Claim C4 counterexample: in a transformed import the untouched entry
`Foo  as  Bar` (irregular internal whitespace, no rename rule for
`Foo`) is not reproduced byte-for-byte — the output contains the
normalised `Foo as Bar` and no longer contains the original bytes; and
an entry named `toString` — subject to no rename rule of the table, but
found on the object's prototype chain — is rebuilt as the text
`undefined` and also not reproduced. -/
theorem irregular_whitespace_not_preserved :
    transformContent stmtIrregular =
      (stmtIrregularOut, [importSummaryLine componentsTransform])
    ∧ ("Foo  as  Bar".data <:+: stmtIrregular)
    ∧ ¬ ("Foo  as  Bar".data <:+: stmtIrregularOut)
    ∧ lookupRename COMPONENT_SPECIFIER_RENAMES "Foo".data = .absent
    ∧ transformContent stmtProto =
        (stmtProtoOut, [importSummaryLine componentsTransform])
    ∧ ("toString".data <:+: stmtProto)
    ∧ ¬ ("toString".data <:+: stmtProtoOut) :=
  ⟨by rfl, by decide, by decide, by rfl, by rfl, by decide, by decide⟩

/-- Claim C4 (amended): a filler entry is reproduced verbatim; an entry
whose imported name neither has a rename rule nor is an inherited
`Object.prototype` member is rebuilt as leading whitespace ++ canonical
specifier text ++ trailing whitespace ++ comma — so its leading/trailing
whitespace and comma are preserved exactly — and it round-trips
byte-for-byte exactly when its original inner text is canonically
spaced; an entry whose imported name is an inherited `Object.prototype`
member is rebuilt with the text `undefined` in place of its name. -/
theorem unrenamed_entry_rebuild :
    (∀ e : NamedImportEntry, e.spec = none →
       buildNamedImportEntry COMPONENT_SPECIFIER_RENAMES e = e.raw)
    ∧ (∀ (e : NamedImportEntry) (sp : NamedImportSpec), e.spec = some sp →
       lookupRename COMPONENT_SPECIFIER_RENAMES sp.imported = .absent →
       buildNamedImportEntry COMPONENT_SPECIFIER_RENAMES e =
         e.leadingWhitespace.getD [] ++ canonicalSpecText sp ++
           e.trailingWhitespace.getD [] ++ e.comma.getD [])
    ∧ (∀ (e : NamedImportEntry) (sp : NamedImportSpec), e.spec = some sp →
       lookupRename COMPONENT_SPECIFIER_RENAMES sp.imported = .absent →
       e.raw = e.leadingWhitespace.getD [] ++ canonicalSpecText sp ++
           e.trailingWhitespace.getD [] ++ e.comma.getD [] →
       buildNamedImportEntry COMPONENT_SPECIFIER_RENAMES e = e.raw)
    ∧ (∀ (e : NamedImportEntry) (sp : NamedImportSpec), e.spec = some sp →
       lookupRename COMPONENT_SPECIFIER_RENAMES sp.imported = .protoMember →
       buildNamedImportEntry COMPONENT_SPECIFIER_RENAMES e =
         e.leadingWhitespace.getD [] ++
           canonicalSpecText ⟨sp.isType, "undefined".data, sp.aliasName⟩ ++
           e.trailingWhitespace.getD [] ++ e.comma.getD []) := by
  have hbuild : ∀ (e : NamedImportEntry) (sp : NamedImportSpec), e.spec = some sp →
      lookupRename COMPONENT_SPECIFIER_RENAMES sp.imported = .absent →
      buildNamedImportEntry COMPONENT_SPECIFIER_RENAMES e =
        e.leadingWhitespace.getD [] ++ canonicalSpecText sp ++
          e.trailingWhitespace.getD [] ++ e.comma.getD [] := by
    intro e sp he hrule
    unfold buildNamedImportEntry
    rw [he]
    simp only [hrule]
    unfold canonicalSpecText
    obtain ⟨isTy, imp, al⟩ := sp
    cases al <;> rfl
  have hproto : ∀ (e : NamedImportEntry) (sp : NamedImportSpec), e.spec = some sp →
      lookupRename COMPONENT_SPECIFIER_RENAMES sp.imported = .protoMember →
      buildNamedImportEntry COMPONENT_SPECIFIER_RENAMES e =
        e.leadingWhitespace.getD [] ++
          canonicalSpecText ⟨sp.isType, "undefined".data, sp.aliasName⟩ ++
          e.trailingWhitespace.getD [] ++ e.comma.getD [] := by
    intro e sp he hrule
    unfold buildNamedImportEntry
    rw [he]
    simp only [hrule]
    unfold canonicalSpecText
    obtain ⟨isTy, imp, al⟩ := sp
    cases al <;> rfl
  exact ⟨fun e he => by unfold buildNamedImportEntry; rw [he],
    hbuild, fun e sp he hrule hraw => (hbuild e sp he hrule).trans hraw.symm, hproto⟩

/-- Claim C4 witness: the rebuild equation applied to a concrete
unrenamed aliased entry, and the prototype-member equation applied to a
concrete `toString` entry. -/
theorem unrenamed_entry_rebuild_witness :
    (buildNamedImportEntry COMPONENT_SPECIFIER_RENAMES
      ⟨" Foo  as  Bar ".data, some ⟨false, "Foo".data, some ("Bar".data)⟩,
        some [' '], some [' '], some [',']⟩ =
    (some [' '] : Option (List Char)).getD [] ++
      canonicalSpecText ⟨false, "Foo".data, some ("Bar".data)⟩ ++
      (some [' '] : Option (List Char)).getD [] ++
      (some [','] : Option (List Char)).getD [])
    ∧ (buildNamedImportEntry COMPONENT_SPECIFIER_RENAMES
      ⟨"toString".data, some ⟨false, "toString".data, none⟩,
        some [], some [], some []⟩ =
    (some ([] : List Char)).getD [] ++
      canonicalSpecText ⟨false, "undefined".data, none⟩ ++
      (some ([] : List Char)).getD [] ++ (some ([] : List Char)).getD []) :=
  ⟨unrenamed_entry_rebuild.2.1 _ _ (by rfl) (by rfl),
   unrenamed_entry_rebuild.2.2.2 _ _ (by rfl) (by rfl)⟩

/-- Claim C5 counterexample: a bare-legacy-path export-from whose clause
references the legacy specifier `Address` is left completely unchanged
with an empty summary (the claim asserts the transform applies). -/
theorem export_bare_not_transformed :
    transformContent exportBare = (exportBare, [])
    ∧ findBrace exportBare = some ("\x7b Address \x7d".data, " Address ".data)
    ∧ "Address".data ∈ (parseNamedImports (" Address ".data)).specifiers
    ∧ "Address".data ∈ LEGACY_COMPONENT_SPECIFIERS :=
  ⟨by rfl, by rfl, by decide, by decide⟩

/-- Claim C5 (amended): the export-from loop resolves transforms with an
empty specifier list, so a bare-legacy-path export-from never receives a
transform, while an export-from with any of the five nested legacy paths
is rewritten to the target package. -/
theorem export_resolver_empty_specifiers :
    determineTransform bareLegacyPath [] = none
    ∧ (nestedLegacyPaths.all
        fun p => decide (determineTransform p [] = some componentsTransform)) = true
    ∧ transformContent exportNested =
        (exportNestedOut, [exportSummaryLine componentsTransform])
    ∧ transformContent exportBare = (exportBare, []) :=
  ⟨by rfl, by decide, by rfl, by rfl⟩

/-- Claim C6 counterexample: there is no list of exactly four paths that
characterises the specifier-independent (nested) transforms — the five
distinct nested legacy paths all resolve to a transform even with no
specifiers, so any such list has at least five elements. -/
theorem rule_table_not_four_nested :
    ¬ ∃ l : List (List Char), l.length = 4 ∧
        ∀ p : List Char, ((determineTransform p []).isSome ↔ p ∈ l) := by
  rintro ⟨l, hlen, hiff⟩
  have hall : ∀ p ∈ nestedLegacyPaths, ((determineTransform p []).isSome) = true :=
    List.all_eq_true.1 (by decide)
  have hsub : nestedLegacyPaths ⊆ l := fun p hp => (hiff p).1 (hall p hp)
  have hnd : nestedLegacyPaths.Nodup := by decide
  have hle := (List.subperm_of_subset hnd hsub).length_le
  have hfive : nestedLegacyPaths.length = 5 := by decide
  omega

/-- Claim C6 (amended): the specifier-independent transforms are exactly
the five nested legacy paths; every applied transform is the single
components transform targeting `@scaffold-ui/components`; and the rename
table holds exactly the rule `InputBase → BaseInput` with the alias
kept; every raw replacement also targets `@scaffold-ui/components`. -/
theorem rule_table_five_nested :
    (∀ p : List Char, ((determineTransform p []).isSome ↔ p ∈ nestedLegacyPaths))
    ∧ nestedLegacyPaths.length = 5
    ∧ (∀ (p : List Char) (specs : List (List Char)) (t : ImportTransform),
        determineTransform p specs = some t → t = componentsTransform)
    ∧ (∀ (name : List Char) (rule : SpecifierRenameRule),
        lookupRename COMPONENT_SPECIFIER_RENAMES name = .rule rule →
        name = "InputBase".data ∧ rule = ⟨"BaseInput".data, true⟩)
    ∧ componentsTransform.newPath = COMPONENT_TARGET
    ∧ (RAW_PATH_REPLACEMENTS.all fun pr => pr.2 == COMPONENT_TARGET) = true := by
  refine ⟨?_, by decide, ?_, ?_, rfl, by decide⟩
  · intro p
    constructor
    · intro hsome
      unfold determineTransform at hsome
      cases hb : bareLegacyPath.isPrefixOf p with
      | false => rw [hb] at hsome; simp at hsome
      | true =>
        rw [hb] at hsome
        by_cases h2 : p = bareLegacyPath
        · simp [h2] at hsome
        · rw [if_pos rfl, if_neg h2] at hsome
          by_cases h3 : p = "~~/components/scaffold-eth/Input".data ∨
              p = "~~/components/scaffold-eth/Input/AddressInput".data ∨
              p = "~~/components/scaffold-eth/Input/EtherInput".data ∨
              p = "~~/components/scaffold-eth/Address/Address".data ∨
              p = "~~/components/scaffold-eth/Address".data
          · simp only [nestedLegacyPaths, List.mem_cons, List.not_mem_nil, or_false]
            exact h3
          · rw [if_neg h3] at hsome; simp at hsome
    · intro hp
      simp only [nestedLegacyPaths, List.mem_cons, List.not_mem_nil, or_false] at hp
      rcases hp with rfl | rfl | rfl | rfl | rfl <;> rfl
  · intro p specs t ht
    unfold determineTransform at ht
    split at ht
    · split at ht
      · split at ht
        · injection ht with h; exact h.symm
        · exact absurd ht (by simp)
      · split at ht
        · injection ht with h; exact h.symm
        · exact absurd ht (by simp)
    · exact absurd ht (by simp)
  · intro name rule h
    unfold lookupRename COMPONENT_SPECIFIER_RENAMES at h
    cases hb : ("InputBase".data == name) with
    | false =>
      rw [List.find?] at h
      rw [hb] at h
      simp only [List.find?] at h
      split at h <;> cases h
    | true =>
      rw [List.find?] at h
      rw [hb] at h
      simp only [] at h
      injection h with h2
      exact ⟨(eq_of_beq hb).symm, h2.symm⟩

/-- Claim C6 amended witness: the nested-path characterisation applied
to the fifth nested path, and the rename-table characterisation applied
to its single entry. -/
theorem rule_table_five_nested_witness :
    ((determineTransform ("~~/components/scaffold-eth/Address".data) []).isSome)
    ∧ ("InputBase".data = "InputBase".data ∧
        (⟨"BaseInput".data, true⟩ : SpecifierRenameRule) = ⟨"BaseInput".data, true⟩) :=
  ⟨(rule_table_five_nested.1 _).2 (by decide),
   rule_table_five_nested.2.2.2.1 _ _ (by rfl)⟩

end Codemod
